import Mathlib

/-!
Verification of the data-transport-layer sources: the TransportDB ordered
storage layer (src/db/db.ts) and the L2 ingestion service polling loop
(the unnamed service file).  The storage backend (LevelUP) is modelled as an
association list sorted by byte-lexicographic key order, which is exactly the
iteration order LevelDB provides; JSON serialization of the record structures
is modelled as the identity embedding into a sum type of stored values, since
JSON.parse after JSON.stringify is the identity on these records.
-/

/-! ## Byte-lexicographic key order (the LevelDB comparator) -/

/-- Strict byte-lexicographic order on lists of characters.  Keys produced by
the code are ASCII, so codepoint order coincides with byte order. -/
def charsLtB : List Char → List Char → Bool
  | [], [] => false
  | [], _ :: _ => true
  | _ :: _, [] => false
  | a :: as, b :: bs => if a < b then true else if b < a then false else charsLtB as bs

/-- Strict byte-lexicographic order on keys. -/
def strLt (s t : String) : Bool := charsLtB s.data t.data

/-- Reflexive byte-lexicographic order on keys (the gte bound of a scan). -/
def strLe (s t : String) : Bool := strLt s t || s == t

/-! ## Decimal rendering of an index

BigNumber.from(index).toString() renders the index in base 10 with no leading
zeros; it is modelled by a fuel-based structural recursion so that concrete
keys evaluate by kernel reduction. -/

/-- Big-endian decimal digits of n, with fuel (fuel above n is always enough). -/
def decDigitsF : Nat → Nat → List Nat
  | 0, _ => []
  | f + 1, n => if n < 10 then [n] else decDigitsF f (n / 10) ++ [n % 10]

/-- Big-endian decimal digits of n; the digit list of 0 is [0]. -/
def decDigits (n : Nat) : List Nat := decDigitsF (n + 1) n

/-- BigNumber.from(n).toString(): decimal rendering without leading zeros. -/
def bnToString (n : Nat) : String := String.mk ((decDigits n).map Nat.digitChar)

/-- JS String.prototype.padStart(32, '0'): left-pad with zeros up to width 32;
strings already at least 32 long are returned unchanged. -/
def padStart32 (s : String) : String :=
  String.mk (List.replicate (32 - s.length) '0' ++ s.data)

/-- TransportDB._makeKey: the kind namespace, a colon, and the index rendered
in decimal and zero-padded to 32 digits. -/
def _makeKey (key : String) (index : Nat) : String :=
  key ++ ":" ++ padStart32 (bnToString index)

/-! ## Record structures (src/db/db.ts interfaces) -/

structure EnqueueEntry where
  index : Nat
  target : String
  data : String
  gasLimit : Nat
  origin : String
  blockNumber : Nat
  timestamp : Nat
deriving DecidableEq, Repr

structure DecodedSig where
  r : String
  s : String
  v : String
deriving DecidableEq, Repr

structure DecodedTransaction where
  sig : DecodedSig
  gasLimit : Nat
  gasPrice : Nat
  nonce : Nat
  target : String
  data : String
deriving DecidableEq, Repr

inductive QueueOrigin
  | sequencer
  | l1
deriving DecidableEq, Repr

inductive TxType
  | EIP155
  | ETH_SIGN
deriving DecidableEq, Repr

structure TransactionEntry where
  index : Nat
  batchIndex : Nat
  data : String
  blockNumber : Nat
  timestamp : Nat
  gasLimit : Nat
  target : String
  origin : String
  queueOrigin : QueueOrigin
  queueIndex : Option Nat
  type : Option TxType
  decoded : Option DecodedTransaction
deriving DecidableEq, Repr

structure TransactionBatchEntry where
  index : Nat
  blockNumber : Nat
  timestamp : Nat
  submitter : String
  size : Nat
  root : String
  prevTotalElements : Nat
  extraData : String
deriving DecidableEq, Repr

structure StateRootEntry where
  index : Nat
  batchIndex : Nat
  value : String
deriving DecidableEq, Repr

structure StateRootBatchEntry where
  index : Nat
  blockNumber : Nat
  timestamp : Nat
  submitter : String
  size : Nat
  root : String
  prevTotalElements : Nat
  extraData : String
deriving DecidableEq, Repr

/-- A value persisted in the backing store: either the JSON serialization of a
record (modelled structurally, since JSON round-trips these records exactly) or
a raw number (the latest pointers and event-scan cursors). -/
inductive StoredValue
  | enqueue (e : EnqueueEntry)
  | transaction (t : TransactionEntry)
  | transactionBatch (b : TransactionBatchEntry)
  | stateRoot (s : StateRootEntry)
  | stateRootBatch (b : StateRootBatchEntry)
  | num (n : Nat)
deriving DecidableEq, Repr

/-! ## The backing key-value store

LevelDB keeps entries sorted by key; value streams iterate in key order.  The
model is an association list maintained sorted by strLt. -/

/-- The store: an association list of key-value pairs, kept sorted by key. -/
abbrev DB := List (String × StoredValue)

/-- Point lookup (db.get). -/
def dbGet : DB → String → Option StoredValue
  | [], _ => none
  | (k', v') :: rest, k => if k = k' then some v' else dbGet rest k

/-- Point write (db.put): insert at the sorted position, overwriting an equal key. -/
def dbPut : DB → String → StoredValue → DB
  | [], k, v => [(k, v)]
  | (k', v') :: rest, k, v =>
    if strLt k k' then (k, v) :: (k', v') :: rest
    else if k = k' then (k, v) :: rest
    else (k', v') :: dbPut rest k v

/-- Batched writes (db.batch with type:'put' operations), applied in order. -/
def dbBatch (db : DB) (ops : List (String × StoredValue)) : DB :=
  ops.foldl (fun d kv => dbPut d kv.1 kv.2) db

/-- Ordered scan (db.createValueStream with gte/lt bounds): the key-value pairs
whose key lies in the half-open byte-lexicographic interval, in store order. -/
def dbScan (db : DB) (gteKey ltKey : String) : List (String × StoredValue) :=
  db.filter (fun kv => strLe gteKey kv.1 && strLt kv.1 ltKey)

/-! ## TransportDB operations (src/db/db.ts) -/

/-- Errors surfaced by the JS code: a rejected db.get on a missing key, a
thrown TypeError (reading a property of undefined / BigNumber.from on a
non-numeric value), or ethers' NUMERIC_FAULT thrown by BigNumber.from on a
number at or above its safe cap. -/
inductive JsError
  | notFound
  | typeError
  | numericFault
deriving DecidableEq, Repr

/-- TransportDB._putBatch: one put operation per element, keyed by the
element's own index. -/
def _putBatch (db : DB) (key : String) (elements : List (Nat × StoredValue)) : DB :=
  dbBatch db (elements.map (fun element => (_makeKey key element.1, element.2)))

/-- TransportDB.putEnqueueEntries: batch-write the entries, then set
enqueue:latest to the index of the final element of the list.  On an empty
list the batch is a no-op and the subsequent access
entries[entries.length - 1].index throws a TypeError; there is no validation
of the index sequence. -/
def putEnqueueEntries (db : DB) (entries : List EnqueueEntry) : Except JsError DB :=
  let afterBatch := _putBatch db "enqueue:index"
    (entries.map (fun e => (e.index, StoredValue.enqueue e)))
  match entries.getLast? with
  | some lastEntry => .ok (dbPut afterBatch "enqueue:latest" (.num lastEntry.index))
  | none => .error .typeError

/-- TransportDB.putTransactionEntries (same shape as putEnqueueEntries). -/
def putTransactionEntries (db : DB) (entries : List TransactionEntry) : Except JsError DB :=
  let afterBatch := _putBatch db "transaction:index"
    (entries.map (fun e => (e.index, StoredValue.transaction e)))
  match entries.getLast? with
  | some lastEntry => .ok (dbPut afterBatch "transaction:latest" (.num lastEntry.index))
  | none => .error .typeError

/-- TransportDB.putStateRootEntries (same shape as putEnqueueEntries). -/
def putStateRootEntries (db : DB) (entries : List StateRootEntry) : Except JsError DB :=
  let afterBatch := _putBatch db "stateroot:index"
    (entries.map (fun e => (e.index, StoredValue.stateRoot e)))
  match entries.getLast? with
  | some lastEntry => .ok (dbPut afterBatch "stateroot:latest" (.num lastEntry.index))
  | none => .error .typeError

/-- TransportDB._get: JSON.parse(await db.get(makeKey(key, index))); a missing
key rejects with NotFound. -/
def _get (db : DB) (key : String) (index : Nat) : Except JsError StoredValue :=
  match dbGet db (_makeKey key index) with
  | some v => .ok v
  | none => .error .notFound

/-- TransportDB.getEnqueueByIndex. -/
def getEnqueueByIndex (db : DB) (index : Nat) : Except JsError EnqueueEntry :=
  match _get db "enqueue:index" index with
  | .ok (.enqueue e) => .ok e
  | .ok _ => .error .typeError
  | .error e => .error e

/-- TransportDB.getTransactionByIndex. -/
def getTransactionByIndex (db : DB) (index : Nat) : Except JsError TransactionEntry :=
  match _get db "transaction:index" index with
  | .ok (.transaction t) => .ok t
  | .ok _ => .error .typeError
  | .error e => .error e

/-- ethers v5 BigNumber.from on a JS number throws the NUMERIC_FAULT
"overflow" unless the number lies below MAX_SAFE = 0x1fffffffffffff
= 2^53 - 1 (bignumber.ts: if (value >= MAX_SAFE || value <= -MAX_SAFE)
throwFault("overflow", "BigNumber.from", value)); only below that cap does
toString ever run.  _makeKey above is the fault-free value on that
representable domain. -/
def maxSafeBigNumber : Nat := 2 ^ 53 - 1

/-- BigNumber.from on a non-negative integer argument: the number itself below
the safe cap, the overflow fault at or above it. -/
def bigNumberFrom (n : Nat) : Except JsError Nat :=
  if n < maxSafeBigNumber then .ok n else .error .numericFault

/-- TransportDB._makeKey with the BigNumber.from overflow fault carried
through: a key string is produced only for representable indices. -/
def _makeKeyE (key : String) (index : Nat) : Except JsError String :=
  match bigNumberFrom index with
  | .ok n => .ok (_makeKey key n)
  | .error e => .error e

/-- TransportDB._values: stream the values whose keys lie in
[makeKey(key, start), makeKey(key, end)), in store (byte-lexicographic)
order.  Both bound keys are encoded up front (the gte/lt option object), so a
bound at or above the BigNumber.from cap rejects the whole call before any
scan happens. -/
def _values (db : DB) (key : String) (startIdx endIdx : Nat) :
    Except JsError (List StoredValue) :=
  match _makeKeyE key startIdx with
  | .error e => .error e
  | .ok gteKey =>
    match _makeKeyE key endIdx with
    | .error e => .error e
    | .ok ltKey => .ok ((dbScan db gteKey ltKey).map (fun kv => kv.2))

/-- TransportDB.getTransactionsByIndexRange; each streamed value parses back to
the transaction record it serializes. -/
def getTransactionsByIndexRange (db : DB) (startIdx endIdx : Nat) :
    Except JsError (List TransactionEntry) :=
  match _values db "transaction:index" startIdx endIdx with
  | .ok vs => .ok (vs.filterMap (fun v =>
      match v with
      | .transaction t => some t
      | _ => none))
  | .error e => .error e

/-- TransportDB.getStateRootsByIndexRange. -/
def getStateRootsByIndexRange (db : DB) (startIdx endIdx : Nat) :
    Except JsError (List StateRootEntry) :=
  match _values db "stateroot:index" startIdx endIdx with
  | .ok vs => .ok (vs.filterMap (fun v =>
      match v with
      | .stateRoot s => some s
      | _ => none))
  | .error e => .error e

/-- TransportDB.getLatestEnqueue: getEnqueueByIndex(await db.get('enqueue:latest')). -/
def getLatestEnqueue (db : DB) : Except JsError EnqueueEntry :=
  match dbGet db "enqueue:latest" with
  | some (.num n) => getEnqueueByIndex db n
  | some _ => .error .typeError
  | none => .error .notFound

/-- Failure modes of a raw backend read: a missing key, an I/O failure, or a
value BigNumber.from cannot parse; getLastScannedEventBlock's try/catch treats
them all alike. -/
inductive DbFailure
  | notFound
  | ioError
  | corrupted
deriving DecidableEq, Repr

/-- TransportDB.getLastScannedEventBlock, factored over the outcome of the
underlying db.get: BigNumber.from(value).toNumber() on a successfully read
number, and null (none) whenever the read rejects for any reason or the value
is not numeric — the try/catch swallows every error. -/
def getLastScannedEventBlockR (res : Except DbFailure StoredValue) : Option Nat :=
  match res with
  | .ok (.num n) => some n
  | .ok _ => none
  | .error _ => none

/-- A raw backend read that can fail: a missing key rejects with NotFound. -/
def dbGetR (db : DB) (k : String) : Except DbFailure StoredValue :=
  match dbGet db k with
  | some v => .ok v
  | none => .error .notFound

/-- TransportDB.getLastScannedEventBlock against the store model. -/
def getLastScannedEventBlock (db : DB) (event : String) : Option Nat :=
  getLastScannedEventBlockR (dbGetR db ("event:latest:" ++ event))

/-- TransportDB.putLastScannedEventBlock. -/
def putLastScannedEventBlock (db : DB) (event : String) (block : Nat) : DB :=
  dbPut db ("event:latest:" ++ event) (.num block)

/-! ## The L2 ingestion service (the unnamed service file)

The service options that the loop body reads.  Defaults are the
optionSettings defaults of the source. -/

structure EngineConfig where
  pollingInterval : Nat := 5000
  /-- transactionsPerPollingInterval -/
  batchSize : Nat := 1000
  dangerouslyCatchAllErrors : Bool := false
  legacySequencerCompatibility : Bool := false
deriving DecidableEq, Repr

/-- Failures that can be raised inside the loop body: RPC transport errors,
decode errors from handleSequencerBlock, and storage errors. -/
inductive IngestErr
  | rpc
  | decode
  | storage
deriving DecidableEq, Repr

/-- A raw block as returned by the sequencer endpoint: its own numeric block
number (BigNumber.from(block.number).toNumber()) plus opaque payload. -/
structure RawBlock where
  number : Nat
  payload : String
deriving DecidableEq, Repr

/-- The comparator-driven re-ordering of compatibility-mode responses:
blocks.sort((a, b) => BigNumber.from(a.number).toNumber() -
BigNumber.from(b.number).toNumber()); the engines' stable comparison sort is
modelled by a stable sort under the comparator's order. -/
def sortBlocks (blocks : List RawBlock) : List RawBlock :=
  blocks.insertionSort (fun a b => a.number ≤ b.number)

instance : IsTotal RawBlock (fun a b => a.number ≤ b.number) :=
  ⟨fun a b => le_total a.number b.number⟩

instance : IsTrans RawBlock (fun a b => a.number ≤ b.number) :=
  ⟨fun _ _ _ hab hbc => le_trans hab hbc⟩

/-- The block numbers requested by the compatibility-mode for loop:
for (let i = startBlockNumber; i <= endBlockNumber; i++). -/
def legacyRequestedBlocks (startBlockNumber endBlockNumber : Nat) : List Nat :=
  List.range' startBlockNumber (endBlockNumber + 1 - startBlockNumber)

/-- _syncSequencerBlocks: none when startBlockNumber > endBlockNumber (log and
return, nothing fetched, nothing handed to the decoder); otherwise the ordered
sequence of raw blocks handed one by one to handleSequencerBlock, given the
per-block responses of the transport (sorted first in compatibility mode,
trusted as returned in bulk mode). -/
def _syncSequencerBlocks (legacy : Bool) (startBlockNumber endBlockNumber : Nat)
    (responses : List RawBlock) : Option (List RawBlock) :=
  if startBlockNumber > endBlockNumber then
    none
  else
    some (if legacy then sortBlocks responses else responses)

/-- One iteration's interactions with the outside world, each of which can
fail: the eth_blockNumber RPC call, the fetch-decode-store phase of
_syncSequencerBlocks, and the cursor write. -/
structure LoopEnv where
  height : Except IngestErr Nat
  syncOk : Except IngestErr Unit
  putOk : Except IngestErr Unit
deriving Repr

/-- Observable outcome of one successfully completed loop iteration: the sync
window the body computed (the values it logs), the bounds handed to
_syncSequencerBlocks when a fetch was attempted, the cursor value after the
iteration, and whether the body sleeps pollingInterval before the next
iteration. -/
structure IterOk where
  hs : Nat
  head : Nat
  tgt : Nat
  fetched : Option (Nat × Nat)
  cursor : Option Nat
  slept : Bool
deriving DecidableEq, Repr, Inhabited

/-- The body of the while loop of _start, up to its catch clause.

The synchronization cursor lives behind
getHighestSyncedUnconfirmedBlock / setHighestSyncedUnconfirmedBlock, which are
declared on TransportDB but whose code is not among the sources.  Modelled
from the spec: the getter returns the stored cursor index and fails as absent
when nothing was ever written, and the setter stores the given number; the
cursor is therefore an Option Nat threaded through the body.  Everything else
is translated from _start:
the default (await get()) || 1 (so a stored 0 is also replaced by 1, 0 being
falsy), head = Math.max(height - 1, 0) (truncated subtraction), target =
Math.min(hs + batchSize, head), the at-head early continue, the
_syncSequencerBlocks call, the unconditional cursor write to target, and the
pacing test (head : Int) - hs < batchSize. -/
def loopBodyCore (cfg : EngineConfig) (cursor : Option Nat) (env : LoopEnv) :
    Except IngestErr IterOk :=
  match env.height with
  | .error e => .error e
  | .ok height =>
    let hs : Nat :=
      match cursor with
      | some n => if n = 0 then 1 else n
      | none => 1
    let cur : Nat := height - 1
    let tgt : Nat := min (hs + cfg.batchSize) cur
    if hs = tgt then
      .ok { hs := hs, head := cur, tgt := tgt, fetched := none,
            cursor := cursor, slept := true }
    else if hs > tgt then
      match env.putOk with
      | .error e => .error e
      | .ok _ =>
        .ok { hs := hs, head := cur, tgt := tgt, fetched := none,
              cursor := some tgt, slept := ((cur : Int) - hs < cfg.batchSize) }
    else
      match env.syncOk with
      | .error e => .error e
      | .ok _ =>
        match env.putOk with
        | .error e => .error e
        | .ok _ =>
          .ok { hs := hs, head := cur, tgt := tgt, fetched := some (hs, tgt),
                cursor := some tgt, slept := ((cur : Int) - hs < cfg.batchSize) }

/-- What one trip through the while loop does, catch clause included. -/
inductive LoopStep
  | next (r : IterOk)
  /-- the error was logged and the loop slept sleptMs before continuing -/
  | caught (sleptMs : Nat)
  /-- the error was re-raised out of the loop, terminating the engine -/
  | raised (e : IngestErr)
deriving DecidableEq, Repr

/-- One trip through the while loop of _start: the body, with any raised error
dispatched by the catch clause — absorbed (logged, then sleep pollingInterval)
when the service is no longer running or dangerouslyCatchAllErrors is set,
re-raised otherwise. -/
def loopBody (cfg : EngineConfig) (running : Bool) (cursor : Option Nat)
    (env : LoopEnv) : LoopStep :=
  match loopBodyCore cfg cursor env with
  | .ok r => .next r
  | .error e =>
    if !running || cfg.dangerouslyCatchAllErrors then .caught cfg.pollingInterval
    else .raised e

/-- An environment in which no interaction fails. -/
def okEnv (height : Nat) : LoopEnv :=
  { height := .ok height, syncOk := .ok (), putOk := .ok () }

/-- The loop body in a failure-free environment (total form; the Inhabited
default is unreachable, see loopBodyCore_okEnv). -/
def loopIter (cfg : EngineConfig) (cursor : Option Nat) (height : Nat) : IterOk :=
  match loopBodyCore cfg cursor (okEnv height) with
  | .ok r => r
  | .error _ => default

/-! ## Spec-side definitions of the sync window -/

/-- Modelled from the spec: the claimed window start, the stored cursor with 1
substituted only when no cursor is present. -/
def claimedHighestSynced (cursor : Option Nat) : Nat :=
  match cursor with
  | some n => n
  | none => 1

/-- The window start the source computes: (await get()) || 1, which replaces
both an absent cursor and a stored 0 by 1. -/
def highestSyncedOf (cursor : Option Nat) : Nat :=
  match cursor with
  | some n => if n = 0 then 1 else n
  | none => 1

/-- The head the source computes: Math.max(height - 1, 0). -/
def headOf (height : Nat) : Nat := height - 1

/-- The target the source computes: Math.min(hs + batchSize, head). -/
def targetOf (cfg : EngineConfig) (cursor : Option Nat) (height : Nat) : Nat :=
  min (highestSyncedOf cursor + cfg.batchSize) (headOf height)

/-! ## Order lemmas for the byte-lexicographic comparator -/

theorem charsLtB_irrefl : ∀ l : List Char, charsLtB l l = false
  | [] => rfl
  | a :: as => by simp [charsLtB, lt_irrefl, charsLtB_irrefl as]

theorem charsLtB_asymm : ∀ xs ys : List Char,
    charsLtB xs ys = true → charsLtB ys xs = false
  | [], [] => by simp [charsLtB]
  | [], _ :: _ => by simp [charsLtB]
  | _ :: _, [] => by simp [charsLtB]
  | a :: as, b :: bs => by
    intro h
    rcases lt_trichotomy a b with hab | hab | hab
    · simp [charsLtB, hab, asymm hab]
    · subst hab
      simp only [charsLtB, lt_irrefl, if_false] at h ⊢
      exact charsLtB_asymm as bs h
    · simp [charsLtB, hab, asymm hab] at h

theorem charsLtB_append_left : ∀ p xs ys : List Char,
    charsLtB (p ++ xs) (p ++ ys) = charsLtB xs ys
  | [], _, _ => rfl
  | c :: p, xs, ys => by
    simp [charsLtB, lt_irrefl, charsLtB_append_left p xs ys]

theorem strLt_irrefl (s : String) : strLt s s = false :=
  charsLtB_irrefl s.data

theorem strLt_asymm {s t : String} (h : strLt s t = true) : strLt t s = false :=
  charsLtB_asymm s.data t.data h

/-! ## Arithmetic facts about the decimal digit lists -/

/-- The numeric value of a big-endian digit list. -/
def ofBE (l : List Nat) : Nat := l.foldl (fun a d => 10 * a + d) 0

theorem ofBE_foldl : ∀ (l : List Nat) (init : Nat),
    l.foldl (fun a d => 10 * a + d) init = init * 10 ^ l.length + ofBE l := by
  intro l
  induction l with
  | nil => intro init; simp [ofBE]
  | cons d l ih =>
    intro init
    have h2 : ofBE (d :: l) = d * 10 ^ l.length + ofBE l := by
      have := ih d
      simp only [ofBE, List.foldl_cons]
      simpa using this
    simp only [List.foldl_cons, List.length_cons, h2]
    rw [ih (10 * init + d)]
    ring

theorem ofBE_cons (d : Nat) (l : List Nat) :
    ofBE (d :: l) = d * 10 ^ l.length + ofBE l := by
  have := ofBE_foldl l d
  simp only [ofBE, List.foldl_cons]
  simpa using this

theorem ofBE_append_singleton (l : List Nat) (d : Nat) :
    ofBE (l ++ [d]) = 10 * ofBE l + d := by
  simp [ofBE, List.foldl_append]

theorem ofBE_lt_pow : ∀ l : List Nat, (∀ d ∈ l, d < 10) → ofBE l < 10 ^ l.length := by
  intro l
  induction l with
  | nil => intro _; simp [ofBE]
  | cons d l ih =>
    intro h
    have hd : d < 10 := h d (List.mem_cons_self d l)
    have hl : ofBE l < 10 ^ l.length := ih (fun x hx => h x (List.mem_cons_of_mem d hx))
    rw [ofBE_cons]
    calc d * 10 ^ l.length + ofBE l < d * 10 ^ l.length + 10 ^ l.length := by omega
      _ = (d + 1) * 10 ^ l.length := by ring
      _ ≤ 10 * 10 ^ l.length := Nat.mul_le_mul_right _ (by omega)
      _ = 10 ^ (d :: l).length := by simp [List.length_cons]; ring

theorem ofBE_replicate_append : ∀ (k : Nat) (l : List Nat),
    ofBE (List.replicate k 0 ++ l) = ofBE l := by
  intro k
  induction k with
  | zero => intro l; rfl
  | succ k ih =>
    intro l
    simp only [List.replicate_succ, List.cons_append, ofBE, List.foldl_cons]
    simpa [ofBE] using ih l

theorem decDigitsF_ofBE : ∀ f n : Nat, n < f → ofBE (decDigitsF f n) = n := by
  intro f
  induction f with
  | zero => intro n h; omega
  | succ f ih =>
    intro n h
    by_cases h10 : n < 10
    · simp [decDigitsF, h10, ofBE]
    · have hdiv : n / 10 < f := by
        have h1 : n / 10 < n := Nat.div_lt_self (by omega) (by omega)
        omega
      rw [decDigitsF, if_neg h10, ofBE_append_singleton, ih _ hdiv]
      omega

theorem decDigitsF_lt10 : ∀ f n : Nat, n < f → ∀ d ∈ decDigitsF f n, d < 10 := by
  intro f
  induction f with
  | zero => intro n h; omega
  | succ f ih =>
    intro n h d hd
    by_cases h10 : n < 10
    · rw [decDigitsF, if_pos h10] at hd
      simp at hd
      omega
    · have hdiv : n / 10 < f := by
        have h1 : n / 10 < n := Nat.div_lt_self (by omega) (by omega)
        omega
      rw [decDigitsF, if_neg h10, List.mem_append] at hd
      rcases hd with hd | hd
      · exact ih _ hdiv d hd
      · simp at hd
        omega

theorem decDigitsF_length_le : ∀ f n k : Nat, n < f → 1 ≤ k → n < 10 ^ k →
    (decDigitsF f n).length ≤ k := by
  intro f
  induction f with
  | zero => intro n k h; omega
  | succ f ih =>
    intro n k h hk hnk
    by_cases h10 : n < 10
    · rw [decDigitsF, if_pos h10]
      simpa using hk
    · obtain ⟨m, rfl⟩ : ∃ m, k = m + 1 := ⟨k - 1, by omega⟩
      have hm : 1 ≤ m := by
        rcases Nat.eq_zero_or_pos m with hm0 | hm0
        · subst hm0; simp at hnk; omega
        · exact hm0
      have hdiv : n / 10 < f := by
        have h1 : n / 10 < n := Nat.div_lt_self (by omega) (by omega)
        omega
      have hdk : n / 10 < 10 ^ m := by
        rw [Nat.div_lt_iff_lt_mul (by omega : 0 < 10)]
        calc n < 10 ^ (m + 1) := hnk
          _ = 10 ^ m * 10 := by ring
      rw [decDigitsF, if_neg h10, List.length_append]
      have := ih (n / 10) m hdiv hm hdk
      simp
      omega

theorem ofBE_decDigits (n : Nat) : ofBE (decDigits n) = n :=
  decDigitsF_ofBE (n + 1) n (Nat.lt_succ_self n)

theorem decDigits_lt10 (n : Nat) : ∀ d ∈ decDigits n, d < 10 :=
  decDigitsF_lt10 (n + 1) n (Nat.lt_succ_self n)

theorem decDigits_length_le {n k : Nat} (hk : 1 ≤ k) (h : n < 10 ^ k) :
    (decDigits n).length ≤ k :=
  decDigitsF_length_le (n + 1) n k (Nat.lt_succ_self n) hk h

/-! ## The padded digit view of a key -/

/-- The digit list of a key's index part: the digits of n left-padded with
zeros to width 32 (wider indices are left unpadded, exactly as padStart does). -/
def padDigits (n : Nat) : List Nat :=
  List.replicate (32 - (decDigits n).length) 0 ++ decDigits n

theorem ofBE_padDigits (n : Nat) : ofBE (padDigits n) = n := by
  rw [padDigits, ofBE_replicate_append, ofBE_decDigits]

theorem padDigits_lt10 (n : Nat) : ∀ d ∈ padDigits n, d < 10 := by
  intro d hd
  rw [padDigits, List.mem_append] at hd
  rcases hd with hd | hd
  · simp at hd
    omega
  · exact decDigits_lt10 n d hd

theorem padDigits_length {n : Nat} (h : n < 10 ^ 32) : (padDigits n).length = 32 := by
  have h1 : (decDigits n).length ≤ 32 := decDigits_length_le (by omega) h
  simp [padDigits]
  omega

theorem makeKey_data (k : String) (n : Nat) :
    (_makeKey k n).data = (k.data ++ [':']) ++ (padDigits n).map Nat.digitChar := by
  have hz : ('0' : Char) = Nat.digitChar 0 := rfl
  simp [_makeKey, padStart32, bnToString, padDigits, String.data_append, hz,
    List.map_replicate, List.map_append]
  exact Or.inr rfl

/-! ## Digit characters -/

theorem digitChar_lt_iff : ∀ a < 10, ∀ b < 10,
    (Nat.digitChar a < Nat.digitChar b ↔ a < b) := by decide

theorem digitChar_inj : ∀ a < 10, ∀ b < 10,
    Nat.digitChar a = Nat.digitChar b → a = b := by decide

/-- Numeric order of equal-width digit lists transfers to byte-lexicographic
order of their character renderings. -/
theorem charsLtB_of_ofBE_lt : ∀ xs ys : List Nat, xs.length = ys.length →
    (∀ d ∈ xs, d < 10) → (∀ d ∈ ys, d < 10) → ofBE xs < ofBE ys →
    charsLtB (xs.map Nat.digitChar) (ys.map Nat.digitChar) = true := by
  intro xs
  induction xs with
  | nil =>
    intro ys hlen _ _ hlt
    cases ys with
    | nil => simp [ofBE] at hlt
    | cons b bs => simp at hlen
  | cons a as ih =>
    intro ys hlen hxs hys hlt
    cases ys with
    | nil => simp at hlen
    | cons b bs =>
      have hL : as.length = bs.length := by simpa using hlen
      have ha : a < 10 := hxs a (List.mem_cons_self a as)
      have hb : b < 10 := hys b (List.mem_cons_self b bs)
      rcases lt_trichotomy a b with hab | hab | hab
      · simp [charsLtB, (digitChar_lt_iff a ha b hb).mpr hab]
      · subst hab
        have hrec : ofBE as < ofBE bs := by
          rw [ofBE_cons, ofBE_cons, hL] at hlt
          exact Nat.lt_of_add_lt_add_left hlt
        simp only [List.map_cons, charsLtB, lt_irrefl, if_false]
        exact ih bs hL (fun d hd => hxs d (List.mem_cons_of_mem a hd))
          (fun d hd => hys d (List.mem_cons_of_mem a hd)) hrec
      · exfalso
        have hbs : ofBE bs < 10 ^ bs.length :=
          ofBE_lt_pow bs (fun d hd => hys d (List.mem_cons_of_mem b hd))
        rw [ofBE_cons, ofBE_cons, hL] at hlt
        have step1 : b * 10 ^ bs.length + ofBE bs < b * 10 ^ bs.length + 10 ^ bs.length :=
          Nat.add_lt_add_left hbs _
        have step2 : b * 10 ^ bs.length + 10 ^ bs.length = (b + 1) * 10 ^ bs.length := by
          ring
        have step3 : (b + 1) * 10 ^ bs.length ≤ a * 10 ^ bs.length :=
          Nat.mul_le_mul_right _ (by omega)
        have final : b * 10 ^ bs.length + ofBE bs < a * 10 ^ bs.length + ofBE as := by
          calc b * 10 ^ bs.length + ofBE bs < (b + 1) * 10 ^ bs.length := by
                rw [← step2]; exact step1
            _ ≤ a * 10 ^ bs.length := step3
            _ ≤ a * 10 ^ bs.length + ofBE as := Nat.le_add_right _ _
        exact lt_asymm hlt final

/-- Digit-character renderings are injective digit-list-wise. -/
theorem map_digitChar_inj : ∀ xs ys : List Nat, (∀ d ∈ xs, d < 10) → (∀ d ∈ ys, d < 10) →
    xs.map Nat.digitChar = ys.map Nat.digitChar → xs = ys := by
  intro xs
  induction xs with
  | nil =>
    intro ys _ _ h
    cases ys with
    | nil => rfl
    | cons b bs => simp at h
  | cons a as ih =>
    intro ys hxs hys h
    cases ys with
    | nil => simp at h
    | cons b bs =>
      simp only [List.map_cons, List.cons.injEq] at h
      have ha : a < 10 := hxs a (List.mem_cons_self a as)
      have hb : b < 10 := hys b (List.mem_cons_self b bs)
      have hab : a = b := digitChar_inj a ha b hb h.1
      have : as = bs := ih bs (fun d hd => hxs d (List.mem_cons_of_mem a hd))
        (fun d hd => hys d (List.mem_cons_of_mem b hd)) h.2
      rw [hab, this]

/-! ## Key-order properties of _makeKey -/

/-- Strict monotonicity of the key encoding over the supported index range. -/
theorem strLt_makeKey (k : String) {a b : Nat} (hab : a < b) (hb : b < 10 ^ 32) :
    strLt (_makeKey k a) (_makeKey k b) = true := by
  have ha : a < 10 ^ 32 := lt_trans hab hb
  rw [strLt, makeKey_data, makeKey_data, charsLtB_append_left]
  exact charsLtB_of_ofBE_lt (padDigits a) (padDigits b)
    (by rw [padDigits_length ha, padDigits_length hb])
    (padDigits_lt10 a) (padDigits_lt10 b)
    (by rw [ofBE_padDigits, ofBE_padDigits]; exact hab)

/-- The key encoding is injective (at any index width). -/
theorem makeKey_inj (k : String) {a b : Nat} (h : _makeKey k a = _makeKey k b) :
    a = b := by
  have hdata : (_makeKey k a).data = (_makeKey k b).data := by rw [h]
  rw [makeKey_data, makeKey_data] at hdata
  have hmap : (padDigits a).map Nat.digitChar = (padDigits b).map Nat.digitChar :=
    List.append_cancel_left hdata
  have hpad : padDigits a = padDigits b :=
    map_digitChar_inj _ _ (padDigits_lt10 a) (padDigits_lt10 b) hmap
  have := congrArg ofBE hpad
  rwa [ofBE_padDigits, ofBE_padDigits] at this

/-- Within the supported width the key order reflects the index order exactly. -/
theorem strLt_makeKey_iff (k : String) {a b : Nat} (ha : a < 10 ^ 32) (hb : b < 10 ^ 32) :
    strLt (_makeKey k a) (_makeKey k b) = true ↔ a < b := by
  constructor
  · intro h
    rcases lt_trichotomy a b with hab | hab | hab
    · exact hab
    · subst hab
      rw [strLt_irrefl] at h
      exact absurd h (by simp)
    · have := strLt_asymm (strLt_makeKey k hab ha)
      rw [this] at h
      exact absurd h (by simp)
  · intro hab
    exact strLt_makeKey k hab hb

theorem makeKey_eq_iff (k : String) {a b : Nat} :
    _makeKey k a = _makeKey k b ↔ a = b := by
  constructor
  · exact makeKey_inj k
  · intro h; rw [h]

theorem strLe_makeKey_iff (k : String) {a b : Nat} (ha : a < 10 ^ 32) (hb : b < 10 ^ 32) :
    strLe (_makeKey k a) (_makeKey k b) = true ↔ a ≤ b := by
  rw [strLe, Bool.or_eq_true, strLt_makeKey_iff k ha hb, beq_iff_eq, makeKey_eq_iff]
  omega

/-! ## Lookup lemmas for the store model -/

theorem dbGet_dbPut_self : ∀ (db : DB) (k : String) (v : StoredValue),
    dbGet (dbPut db k v) k = some v := by
  intro db k v
  induction db with
  | nil => simp [dbPut, dbGet]
  | cons kv rest ih =>
    obtain ⟨k', v'⟩ := kv
    by_cases hlt : strLt k k' = true
    · simp [dbPut, hlt, dbGet]
    · by_cases heq : k = k'
      · simp [dbPut, hlt, heq, dbGet, strLt_irrefl]
      · simp [dbPut, hlt, heq, dbGet, ih]

theorem dbGet_dbPut_ne : ∀ (db : DB) (k k'' : String) (v : StoredValue),
    k ≠ k'' → dbGet (dbPut db k'' v) k = dbGet db k := by
  intro db k k'' v hne
  induction db with
  | nil => simp [dbPut, dbGet, hne]
  | cons kv rest ih =>
    obtain ⟨k', v'⟩ := kv
    by_cases hlt : strLt k'' k' = true
    · simp [dbPut, hlt, dbGet, hne]
    · by_cases heq : k'' = k'
      · subst heq
        simp [dbPut, hlt, dbGet, hne]
      · simp [dbPut, hlt, heq, dbGet, ih]

theorem dbGet_dbBatch_notMem : ∀ (ops : List (String × StoredValue)) (db : DB) (k : String),
    (∀ op ∈ ops, op.1 ≠ k) → dbGet (dbBatch db ops) k = dbGet db k := by
  intro ops
  induction ops with
  | nil => intro db k _; rfl
  | cons op rest ih =>
    intro db k h
    have hop : op.1 ≠ k := h op (List.mem_cons_self op rest)
    have hrest : ∀ op' ∈ rest, op'.1 ≠ k := fun op' h' => h op' (List.mem_cons_of_mem op h')
    simp only [dbBatch, List.foldl_cons]
    rw [show (List.foldl (fun d kv => dbPut d kv.1 kv.2) (dbPut db op.1 op.2) rest)
        = dbBatch (dbPut db op.1 op.2) rest from rfl, ih _ _ hrest]
    exact dbGet_dbPut_ne _ _ _ _ (fun he => hop he.symm)

theorem dbGet_dbBatch_mem : ∀ (ops : List (String × StoredValue)) (db : DB)
    (k : String) (v : StoredValue), (ops.map Prod.fst).Nodup → (k, v) ∈ ops →
    dbGet (dbBatch db ops) k = some v := by
  intro ops
  induction ops with
  | nil => intro db k v _ h; simp at h
  | cons op rest ih =>
    intro db k v hnd hmem
    have hnd' : (rest.map Prod.fst).Nodup := (List.nodup_cons.mp hnd).2
    have hhead : op.1 ∉ rest.map Prod.fst := (List.nodup_cons.mp hnd).1
    simp only [dbBatch, List.foldl_cons]
    rcases List.mem_cons.mp hmem with heq | hmem'
    · subst heq
      rw [show (List.foldl (fun d kv => dbPut d kv.1 kv.2) (dbPut db k v) rest)
          = dbBatch (dbPut db k v) rest from rfl]
      rw [dbGet_dbBatch_notMem rest _ k
        (fun op' h' hke => hhead (List.mem_map.mpr ⟨op', h', hke⟩))]
      exact dbGet_dbPut_self _ _ _
    · exact ih _ _ _ hnd' hmem'

theorem dbGet_some_mem : ∀ (db : DB) (k : String) (v : StoredValue),
    dbGet db k = some v → (k, v) ∈ db := by
  intro db k v
  induction db with
  | nil => intro h; simp [dbGet] at h
  | cons kv rest ih =>
    obtain ⟨k', v'⟩ := kv
    intro h
    by_cases heq : k = k'
    · subst heq
      simp [dbGet] at h
      simp [h]
    · simp [dbGet, heq] at h
      exact List.mem_cons_of_mem _ (ih h)

theorem mem_dbGet_of_nodup : ∀ (db : DB) (k : String) (v : StoredValue),
    (db.map Prod.fst).Nodup → (k, v) ∈ db → dbGet db k = some v := by
  intro db
  induction db with
  | nil => intro k v _ h; simp at h
  | cons kv rest ih =>
    obtain ⟨k', v'⟩ := kv
    intro k v hnd hmem
    have hnd' : (rest.map Prod.fst).Nodup := (List.nodup_cons.mp hnd).2
    have hhead : k' ∉ rest.map Prod.fst := (List.nodup_cons.mp hnd).1
    rcases List.mem_cons.mp hmem with heq | hmem'
    · injection heq with h1 h2
      subst h1
      subst h2
      simp [dbGet]
    · have hne : k ≠ k' := by
        intro he
        subst he
        exact hhead (List.mem_map_of_mem Prod.fst hmem')
      simp [dbGet, hne]
      exact ih k v hnd' hmem'

/-- A store sorted by strict key order has no duplicate keys. -/
theorem sorted_keys_nodup (db : DB)
    (h : db.Pairwise (fun a b => strLt a.1 b.1 = true)) : (db.map Prod.fst).Nodup := by
  refine List.Pairwise.map Prod.fst ?_ h
  intro a b hab heq
  rw [heq, strLt_irrefl] at hab
  exact absurd hab (by simp)

/-! ## Auxiliary facts for the put/get round trip -/

theorem decDigitsF_ne_nil : ∀ f n : Nat, n < f → decDigitsF f n ≠ [] := by
  intro f n h
  cases f with
  | zero => omega
  | succ f =>
    by_cases h10 : n < 10
    · simp [decDigitsF, h10]
    · simp [decDigitsF, h10]

theorem padDigits_pos (i : Nat) : 1 ≤ (padDigits i).length := by
  have h := decDigitsF_ne_nil (i + 1) i (Nat.lt_succ_self i)
  have : 0 < (decDigits i).length := List.length_pos.mpr h
  simp [padDigits]
  omega

theorem makeKey_length (k : String) (i : Nat) :
    (_makeKey k i).data.length = k.data.length + 1 + (padDigits i).length := by
  rw [makeKey_data]
  simp
  omega

/-- A maximum-at-the-end fact for strictly increasing projections. -/
theorem pairwise_le_getLast {α : Type _} {f : α → Nat} : ∀ (l : List α) (h : l ≠ []),
    l.Pairwise (fun a b => f a < f b) → ∀ x ∈ l, f x ≤ f (l.getLast h) := by
  intro l
  induction l with
  | nil => intro h; exact absurd rfl h
  | cons a rest ih =>
    intro h hpw x hx
    cases rest with
    | nil =>
      simp at hx
      subst hx
      simp [List.getLast]
    | cons b rest' =>
      rw [List.getLast_cons (by simp)]
      rcases List.mem_cons.mp hx with rfl | hx'
      · have hlt : f x < f ((b :: rest').getLast (by simp)) :=
          (List.pairwise_cons.mp hpw).1 _ (List.getLast_mem (by simp))
        omega
      · exact ih (by simp) (List.pairwise_cons.mp hpw).2 x hx'

/-! ## Claim C5 -/

/-- C5: the key encoding is strictly monotone over the supported index range:
for every kind namespace and indices a < b with b < 10^32, the encoded key of
a (namespace, colon, index in base 10 zero-padded to 32 digits) is strictly
smaller than the encoded key of b in byte-lexicographic order. -/
theorem makeKey_strictly_monotone (k : String) (a b : Nat)
    (hab : a < b) (hb : b < 10 ^ 32) :
    strLt (_makeKey k a) (_makeKey k b) = true :=
  strLt_makeKey k hab hb

theorem makeKey_strictly_monotone_witness :
    3 < 7 ∧ 7 < 10 ^ 32 ∧
      strLt (_makeKey "enqueue:index" 3) (_makeKey "enqueue:index" 7) = true :=
  ⟨by norm_num, by norm_num,
    makeKey_strictly_monotone "enqueue:index" 3 7 (by norm_num) (by norm_num)⟩

/-! ## Claim C3 -/

/-- A sample enqueue record with index 2. -/
def e2c3 : EnqueueEntry :=
  { index := 2, target := "t2", data := "d2", gasLimit := 1, origin := "o",
    blockNumber := 5, timestamp := 50 }

/-- A sample enqueue record with index 1, listed after e2c3 to make the pair
not strictly increasing. -/
def e1c3 : EnqueueEntry :=
  { index := 1, target := "t1", data := "d1", gasLimit := 1, origin := "o",
    blockNumber := 4, timestamp := 40 }

/-- The store putEnqueueEntries produces from the out-of-order pair. -/
def c3db : DB :=
  match putEnqueueEntries [] [e2c3, e1c3] with
  | .ok d => d
  | .error _ => []

/-- C3 counterexample: the non-empty sequence [index 2, index 1] is not
strictly increasing, yet the indexed batch write succeeds (no InvalidArgument
error), writes both records, and sets the latest pointer to the final
element's index 1 rather than rejecting the call. -/
theorem putEnqueueEntries_no_validation :
    (putEnqueueEntries [] [e2c3, e1c3]).isOk = true ∧
    dbGet c3db (_makeKey "enqueue:index" 1) = some (.enqueue e1c3) ∧
    dbGet c3db (_makeKey "enqueue:index" 2) = some (.enqueue e2c3) ∧
    dbGet c3db "enqueue:latest" = some (.num 1) :=
  ⟨rfl, rfl, rfl, rfl⟩

/-- C3 (amended): the indexed batch write performs no validation.  On an empty
sequence it raises a TypeError (reading .index of the undefined last element),
not InvalidArgument, after an empty batch that writes nothing; every non-empty
sequence — strictly increasing or not — is written in full without error, and
the latest pointer is set to the index of the final element of the sequence. -/
theorem putEnqueueEntries_behavior (db : DB) (entries : List EnqueueEntry) :
    (entries = [] → putEnqueueEntries db entries = .error .typeError) ∧
    (∀ h : entries ≠ [],
      putEnqueueEntries db entries =
        .ok (dbPut
          (_putBatch db "enqueue:index"
            (entries.map (fun e => (e.index, StoredValue.enqueue e))))
          "enqueue:latest" (.num (entries.getLast h).index))) := by
  constructor
  · intro h
    subst h
    rfl
  · intro h
    have hlast : entries.getLast? = some (entries.getLast h) :=
      List.getLast?_eq_getLast entries h
    simp [putEnqueueEntries, hlast]

theorem putEnqueueEntries_behavior_witness :
    putEnqueueEntries [] ([] : List EnqueueEntry) = .error .typeError ∧
    putEnqueueEntries [] [e2c3, e1c3] =
      .ok (dbPut
        (_putBatch [] "enqueue:index"
          ([e2c3, e1c3].map (fun e => (e.index, StoredValue.enqueue e))))
        "enqueue:latest" (.num ([e2c3, e1c3].getLast (by simp)).index)) :=
  ⟨(putEnqueueEntries_behavior [] []).1 rfl,
    (putEnqueueEntries_behavior [] [e2c3, e1c3]).2 (by simp)⟩

/-! ## Claim C4 -/

theorem makeKey_enqueue_ne_latest (i : Nat) :
    _makeKey "enqueue:index" i ≠ "enqueue:latest" := by
  intro h
  have hlen := congrArg (fun s => s.data.length) h
  dsimp only at hlen
  rw [makeKey_length] at hlen
  have h13 : ("enqueue:index" : String).data.length = 13 := rfl
  have h14 : ("enqueue:latest" : String).data.length = 14 := rfl
  rw [h13, h14] at hlen
  have hpad := padDigits_pos i
  omega

/-- C4: after a non-empty, strictly-increasing sequence of records is written
with the indexed batch write, every index of the sequence is retrievable with
getByIndex and returns the record written there, the latest pointer holds the
final element's index, that index is the maximum of the sequence, and
getLatest returns the final record. -/
theorem putIndexed_roundtrip (db : DB) (entries : List EnqueueEntry)
    (hne : entries ≠ [])
    (hinc : (entries.map EnqueueEntry.index).Chain' (· < ·)) :
    ∀ db', putEnqueueEntries db entries = .ok db' →
      (∀ e ∈ entries, getEnqueueByIndex db' e.index = .ok e) ∧
      dbGet db' "enqueue:latest" = some (.num (entries.getLast hne).index) ∧
      (∀ e ∈ entries, e.index ≤ (entries.getLast hne).index) ∧
      getLatestEnqueue db' = .ok (entries.getLast hne) := by
  intro db' hput
  have hlast : entries.getLast? = some (entries.getLast hne) :=
    List.getLast?_eq_getLast entries hne
  rw [putEnqueueEntries] at hput
  simp only [hlast] at hput
  have hdb' : db' = dbPut
      (_putBatch db "enqueue:index"
        (entries.map (fun e => (e.index, StoredValue.enqueue e))))
      "enqueue:latest" (.num (entries.getLast hne).index) := by
    cases hput
    rfl
  subst hdb'
  have hpw : (entries.map EnqueueEntry.index).Pairwise (· < ·) :=
    List.chain'_iff_pairwise.mp hinc
  have hpwe : entries.Pairwise (fun a b => a.index < b.index) :=
    List.pairwise_map.mp hpw
  -- the batched operations have pairwise-distinct keys
  have hopsEq : (entries.map (fun e => (e.index, StoredValue.enqueue e))).map
      (fun element => (_makeKey "enqueue:index" element.1, element.2))
      = entries.map (fun e => (_makeKey "enqueue:index" e.index, StoredValue.enqueue e)) := by
    rw [List.map_map]
    rfl
  have hkeysEq : ((entries.map
        (fun e => (_makeKey "enqueue:index" e.index, StoredValue.enqueue e))).map
        Prod.fst)
      = entries.map (fun e => _makeKey "enqueue:index" e.index) := by
    rw [List.map_map]
    rfl
  have hnodup : ((entries.map
      (fun e => (_makeKey "enqueue:index" e.index, StoredValue.enqueue e))).map
      Prod.fst).Nodup := by
    rw [hkeysEq]
    refine List.Pairwise.map _ ?_ hpwe
    intro a b hab heq
    have := makeKey_inj "enqueue:index" heq
    omega
  have hget : ∀ e ∈ entries, getEnqueueByIndex
      (dbPut (_putBatch db "enqueue:index"
        (entries.map (fun e => (e.index, StoredValue.enqueue e))))
        "enqueue:latest" (.num (entries.getLast hne).index)) e.index = .ok e := by
    intro e he
    have h1 : dbGet (dbPut (_putBatch db "enqueue:index"
          (entries.map (fun e => (e.index, StoredValue.enqueue e))))
          "enqueue:latest" (.num (entries.getLast hne).index))
        (_makeKey "enqueue:index" e.index)
        = dbGet (_putBatch db "enqueue:index"
          (entries.map (fun e => (e.index, StoredValue.enqueue e))))
          (_makeKey "enqueue:index" e.index) :=
      dbGet_dbPut_ne _ _ _ _ (makeKey_enqueue_ne_latest e.index)
    have h2 : dbGet (_putBatch db "enqueue:index"
          (entries.map (fun e => (e.index, StoredValue.enqueue e))))
          (_makeKey "enqueue:index" e.index)
        = some (.enqueue e) := by
      rw [_putBatch, hopsEq]
      exact dbGet_dbBatch_mem _ db _ _ hnodup
        (List.mem_map.mpr ⟨e, he, rfl⟩)
    rw [getEnqueueByIndex, _get, h1, h2]
  refine ⟨hget, dbGet_dbPut_self _ _ _, ?_, ?_⟩
  · intro e he
    exact pairwise_le_getLast entries hne hpwe e he
  · rw [getLatestEnqueue, dbGet_dbPut_self]
    exact hget (entries.getLast hne) (List.getLast_mem hne)

/-- Sample records for the round-trip witness. -/
def w1c4 : EnqueueEntry :=
  { index := 1, target := "ta", data := "da", gasLimit := 2, origin := "oa",
    blockNumber := 7, timestamp := 70 }

def w2c4 : EnqueueEntry :=
  { index := 4, target := "tb", data := "db", gasLimit := 3, origin := "ob",
    blockNumber := 8, timestamp := 80 }

def c4db : DB :=
  match putEnqueueEntries [] [w1c4, w2c4] with
  | .ok d => d
  | .error _ => []

theorem putIndexed_roundtrip_witness :
    getEnqueueByIndex c4db 1 = .ok w1c4 ∧
    getEnqueueByIndex c4db 4 = .ok w2c4 ∧
    dbGet c4db "enqueue:latest" = some (.num 4) ∧
    getLatestEnqueue c4db = .ok w2c4 := by
  have h := putIndexed_roundtrip [] [w1c4, w2c4] (by simp)
    (by simp [w1c4, w2c4]) c4db rfl
  refine ⟨?_, ?_, ?_, ?_⟩
  · exact h.1 w1c4 (by simp)
  · exact h.1 w2c4 (by simp)
  · exact h.2.1
  · exact h.2.2.2

/-! ## Claim C6 -/

/-- Any key lying byte-lexicographically between two keys that share a common
head extends that common head. -/
theorem charsLtB_between_common : ∀ p k xs ys : List Char,
    (charsLtB (p ++ xs) k = true ∨ p ++ xs = k) →
    charsLtB k (p ++ ys) = true →
    ∃ rest, k = p ++ rest := by
  intro p
  induction p with
  | nil =>
    intro k xs ys _ _
    exact ⟨k, rfl⟩
  | cons c p ih =>
    intro k xs ys h1 h2
    cases k with
    | nil =>
      rcases h1 with h1 | h1
      · simp [charsLtB] at h1
      · simp at h1
    | cons c' k' =>
      rcases lt_trichotomy c c' with hcc | hcc | hcc
      · exfalso
        simp only [List.cons_append, charsLtB] at h2
        rw [if_neg (asymm hcc), if_pos hcc] at h2
        exact Bool.false_ne_true h2
      · subst hcc
        have hunf := charsLtB_append_left [c]
        have h1' : charsLtB (p ++ xs) k' = true ∨ p ++ xs = k' := by
          rcases h1 with h1 | h1
          · left
            rw [List.cons_append, show c :: (p ++ xs) = [c] ++ (p ++ xs) from rfl,
              show c :: k' = [c] ++ k' from rfl, hunf] at h1
            exact h1
          · right
            rw [List.cons_append] at h1
            injection h1
        have h2' : charsLtB k' (p ++ ys) = true := by
          rw [List.cons_append, show c :: (p ++ ys) = [c] ++ (p ++ ys) from rfl,
            show c :: k' = [c] ++ k' from rfl, hunf] at h2
          exact h2
        obtain ⟨rest, hrest⟩ := ih k' xs ys h1' h2'
        exact ⟨rest, by rw [List.cons_append, hrest]⟩
      · exfalso
        rcases h1 with h1 | h1
        · simp only [List.cons_append, charsLtB] at h1
          rw [if_neg (asymm hcc), if_pos hcc] at h1
          exact Bool.false_ne_true h1
        · rw [List.cons_append] at h1
          injection h1 with hc _
          subst hc
          exact lt_irrefl c hcc

/-- Well-formedness of a store with respect to the transaction index
namespace: entries are in strictly ascending key order, and every key
extending "transaction:index:" is the key encoding of its own transaction
record's index, below the BigNumber.from cap — the only keys any write of the
code can produce, since putTransactionEntries runs every index through the
same encoder. -/
structure TxStoreWF (db : DB) : Prop where
  sorted : db.Pairwise (fun a b => strLt a.1 b.1 = true)
  keys : ∀ kv ∈ db, ∀ rest : List Char,
    kv.1.data = ("transaction:index" : String).data ++ ':' :: rest →
    ∃ t, kv.2 = StoredValue.transaction t ∧ t.index < maxSafeBigNumber ∧
      kv.1 = _makeKey "transaction:index" t.index

/-- An in-range element of a well-formed store is a transaction record keyed
by its own index, with the index inside the queried bounds. -/
theorem scan_elem_tx (db : DB) (s e : Nat) (hwf : TxStoreWF db)
    (hs : s < maxSafeBigNumber) (he : e < maxSafeBigNumber) :
    ∀ kv ∈ db, (strLe (_makeKey "transaction:index" s) kv.1 &&
        strLt kv.1 (_makeKey "transaction:index" e)) = true →
    ∃ t, kv.2 = StoredValue.transaction t ∧ t.index < maxSafeBigNumber ∧
      kv.1 = _makeKey "transaction:index" t.index ∧ s ≤ t.index ∧ t.index < e := by
  have hmax : maxSafeBigNumber < 10 ^ 32 := by norm_num [maxSafeBigNumber]
  have hs32 : s < 10 ^ 32 := lt_trans hs hmax
  have he32 : e < 10 ^ 32 := lt_trans he hmax
  intro kv hkv hcond
  rw [Bool.and_eq_true] at hcond
  obtain ⟨hge, hlt⟩ := hcond
  have hge' : charsLtB ((("transaction:index" : String).data ++ [':']) ++
        (padDigits s).map Nat.digitChar) kv.1.data = true
      ∨ (("transaction:index" : String).data ++ [':']) ++
        (padDigits s).map Nat.digitChar = kv.1.data := by
    rw [strLe, Bool.or_eq_true] at hge
    rcases hge with h | h
    · left
      rw [strLt] at h
      rw [← makeKey_data]
      exact h
    · right
      rw [beq_iff_eq] at h
      rw [← makeKey_data, h]
  have hlt' : charsLtB kv.1.data ((("transaction:index" : String).data ++ [':']) ++
      (padDigits e).map Nat.digitChar) = true := by
    rw [strLt] at hlt
    rw [← makeKey_data]
    exact hlt
  obtain ⟨rest, hrest⟩ := charsLtB_between_common
    (("transaction:index" : String).data ++ [':']) kv.1.data
    ((padDigits s).map Nat.digitChar) ((padDigits e).map Nat.digitChar) hge' hlt'
  have hrest' : kv.1.data = ("transaction:index" : String).data ++ ':' :: rest := by
    rw [hrest, List.append_assoc]
    rfl
  obtain ⟨t, hv, htSafe, hk⟩ := hwf.keys kv hkv rest hrest'
  have ht32 : t.index < 10 ^ 32 := lt_trans htSafe hmax
  refine ⟨t, hv, htSafe, hk, ?_, ?_⟩
  · have : strLe (_makeKey "transaction:index" s)
        (_makeKey "transaction:index" t.index) = true := by rw [← hk]; exact hge
    exact (strLe_makeKey_iff "transaction:index" hs32 ht32).mp this
  · have : strLt (_makeKey "transaction:index" t.index)
        (_makeKey "transaction:index" e) = true := by rw [← hk]; exact hlt
    exact (strLt_makeKey_iff "transaction:index" ht32 he32).mp this

/-- C6 (amended): for a well-formed store and bounds s, e the key encoder
accepts (s, e below the BigNumber.from cap 2^53 - 1 — every index such a bound
can compare against pads to the full 32 digits), the range query succeeds and
returns exactly the stored transaction records whose index satisfies
s ≤ index < e, in strictly ascending index order (hence the empty sequence
when no record qualifies); a bound at or above the cap makes the call reject
with the numeric overflow fault instead of returning a sequence, see the
counterexample. -/
theorem getRange_exact (db : DB) (s e : Nat) (hwf : TxStoreWF db)
    (hs : s < maxSafeBigNumber) (he : e < maxSafeBigNumber) :
    (getTransactionsByIndexRange db s e).isOk = true ∧
    ∀ ts, getTransactionsByIndexRange db s e = .ok ts →
      ts.Pairwise (fun a b => a.index < b.index) ∧
      (∀ t, t ∈ ts ↔
        (dbGet db (_makeKey "transaction:index" t.index) = some (.transaction t) ∧
          s ≤ t.index ∧ t.index < e)) := by
  have hmax : maxSafeBigNumber < 10 ^ 32 := by norm_num [maxSafeBigNumber]
  have hs32 : s < 10 ^ 32 := lt_trans hs hmax
  have he32 : e < 10 ^ 32 := lt_trans he hmax
  have hrw : getTransactionsByIndexRange db s e
      = .ok ((db.filter (fun kv => strLe (_makeKey "transaction:index" s) kv.1 &&
          strLt kv.1 (_makeKey "transaction:index" e))).filterMap
        (fun kv : String × StoredValue =>
          match kv.2 with
          | StoredValue.transaction t => some t
          | _ => none)) := by
    simp only [getTransactionsByIndexRange, _values, _makeKeyE, bigNumberFrom,
      if_pos hs, if_pos he, dbScan, List.filterMap_map]
    rfl
  refine ⟨by rw [hrw]; rfl, ?_⟩
  intro ts hts
  rw [hrw] at hts
  injection hts with hts
  subst hts
  constructor
  · rw [List.pairwise_filterMap]
    refine List.Pairwise.imp_of_mem ?_ (hwf.sorted.filter _)
    intro a b ha hb hab x hx y hy
    rw [List.mem_filter] at ha hb
    obtain ⟨ta, hva, htaSafe, hka, _, _⟩ := scan_elem_tx db s e hwf hs he a ha.1 ha.2
    obtain ⟨tb, hvb, htbSafe, hkb, _, _⟩ := scan_elem_tx db s e hwf hs he b hb.1 hb.2
    rw [hva] at hx
    rw [hvb] at hy
    simp at hx hy
    subst hx
    subst hy
    rw [hka, hkb] at hab
    exact (strLt_makeKey_iff "transaction:index"
      (lt_trans htaSafe hmax) (lt_trans htbSafe hmax)).mp hab
  · intro t
    rw [List.mem_filterMap]
    constructor
    · rintro ⟨kv, hkv, hmatch⟩
      rw [List.mem_filter] at hkv
      obtain ⟨t', hv, htSafe, hk, hst, hte⟩ := scan_elem_tx db s e hwf hs he kv hkv.1 hkv.2
      rw [hv] at hmatch
      simp at hmatch
      subst hmatch
      refine ⟨?_, hst, hte⟩
      rw [← hk, ← hv]
      exact mem_dbGet_of_nodup db kv.1 kv.2 (sorted_keys_nodup db hwf.sorted)
        (by rw [show (kv.1, kv.2) = kv from rfl]; exact hkv.1)
    · rintro ⟨hget, hst, hte⟩
      have ht32 : t.index < 10 ^ 32 := lt_trans (lt_trans hte he) hmax
      have hmem := dbGet_some_mem db _ _ hget
      refine ⟨(_makeKey "transaction:index" t.index, StoredValue.transaction t),
        List.mem_filter.mpr ⟨hmem, ?_⟩, rfl⟩
      rw [Bool.and_eq_true]
      exact ⟨(strLe_makeKey_iff "transaction:index" hs32 ht32).mpr hst,
        (strLt_makeKey_iff "transaction:index" ht32 he32).mpr hte⟩

/-- An ordinary transaction record stored at index 5. -/
def txc6 : TransactionEntry :=
  { index := 5, batchIndex := 0, data := "dd", blockNumber := 1,
    timestamp := 10, gasLimit := 21000, target := "tt", origin := "oo",
    queueOrigin := .sequencer, queueIndex := none, type := none, decoded := none }

/-- A store holding exactly that record, keyed by its index. -/
def c6db : DB := [(_makeKey "transaction:index" 5, .transaction txc6)]

/-- C6 counterexample: the record at index 5 is stored and qualifies for the
bounds s = 0, e = 2^53 (0 ≤ 5 < 2^53, and 2^53 is an exactly representable JS
number a caller can pass), yet the query does not return the claimed ascending
one-record sequence — or any sequence: encoding the lt bound runs
BigNumber.from(2^53), which throws ethers' NUMERIC_FAULT overflow (the value
is at the MAX_SAFE cap check), so the call rejects. -/
theorem getRange_counterexample :
    dbGet c6db (_makeKey "transaction:index" 5) = some (.transaction txc6) ∧
    txc6.index < 2 ^ 53 ∧
    getTransactionsByIndexRange c6db 0 (2 ^ 53) = .error .numericFault :=
  ⟨rfl, by norm_num [txc6], rfl⟩

/-- Two transaction records for the range-query witness. -/
def txw1 : TransactionEntry :=
  { index := 3, batchIndex := 0, data := "d3", blockNumber := 1,
    timestamp := 10, gasLimit := 21000, target := "t3", origin := "o3",
    queueOrigin := .sequencer, queueIndex := none, type := none, decoded := none }

def txw2 : TransactionEntry :=
  { index := 7, batchIndex := 1, data := "d7", blockNumber := 2,
    timestamp := 20, gasLimit := 21000, target := "t7", origin := "o7",
    queueOrigin := .l1, queueIndex := some 1, type := some .EIP155,
    decoded := none }

def c6wdb : DB :=
  [(_makeKey "transaction:index" 3, .transaction txw1),
   (_makeKey "transaction:index" 7, .transaction txw2)]

theorem c6wdb_wf : TxStoreWF c6wdb := by
  constructor
  · refine List.Pairwise.cons ?_ (List.Pairwise.cons (by simp) List.Pairwise.nil)
    intro kv hkv
    rw [List.mem_singleton] at hkv
    subst hkv
    decide
  · intro kv hkv rest _
    rcases List.mem_cons.mp hkv with h | h
    · subst h
      exact ⟨txw1, rfl, by norm_num [txw1, maxSafeBigNumber], rfl⟩
    · rw [List.mem_singleton] at h
      subst h
      exact ⟨txw2, rfl, by norm_num [txw2, maxSafeBigNumber], rfl⟩

theorem getRange_exact_witness :
    (getTransactionsByIndexRange c6wdb 2 8).isOk = true ∧
    ∀ ts, getTransactionsByIndexRange c6wdb 2 8 = .ok ts →
      ts.Pairwise (fun a b => a.index < b.index) ∧
      (∀ t, t ∈ ts ↔
        (dbGet c6wdb (_makeKey "transaction:index" t.index) = some (.transaction t) ∧
          2 ≤ t.index ∧ t.index < 8)) :=
  getRange_exact c6wdb 2 8 c6wdb_wf (by norm_num [maxSafeBigNumber])
    (by norm_num [maxSafeBigNumber])

/-! ## Branch lemmas for the loop body in a failure-free environment -/

theorem loopIter_atHead (cfg : EngineConfig) (c : Option Nat) (h : Nat)
    (hc : highestSyncedOf c = targetOf cfg c h) :
    loopIter cfg c h =
      { hs := highestSyncedOf c, head := headOf h, tgt := targetOf cfg c h,
        fetched := none, cursor := c, slept := true } := by
  rw [loopIter, loopBodyCore.eq_def]
  simp only [okEnv, headOf, targetOf, highestSyncedOf] at hc ⊢
  rw [if_pos hc]

theorem loopIter_backward (cfg : EngineConfig) (c : Option Nat) (h : Nat)
    (hc : highestSyncedOf c > targetOf cfg c h) :
    loopIter cfg c h =
      { hs := highestSyncedOf c, head := headOf h, tgt := targetOf cfg c h,
        fetched := none, cursor := some (targetOf cfg c h),
        slept := ((headOf h : Int) - highestSyncedOf c < cfg.batchSize) } := by
  rw [loopIter, loopBodyCore.eq_def]
  simp only [okEnv, headOf, targetOf, highestSyncedOf] at hc ⊢
  rw [if_neg (by omega), if_pos hc]

theorem loopIter_fetch (cfg : EngineConfig) (c : Option Nat) (h : Nat)
    (hc : highestSyncedOf c < targetOf cfg c h) :
    loopIter cfg c h =
      { hs := highestSyncedOf c, head := headOf h, tgt := targetOf cfg c h,
        fetched := some (highestSyncedOf c, targetOf cfg c h),
        cursor := some (targetOf cfg c h),
        slept := ((headOf h : Int) - highestSyncedOf c < cfg.batchSize) } := by
  rw [loopIter, loopBodyCore.eq_def]
  simp only [okEnv, headOf, targetOf, highestSyncedOf] at hc ⊢
  rw [if_neg (by omega), if_neg (by omega)]

/-- The service configuration of the spec's scenario: batchSize 5, all other
options at their defaults. -/
def cfg5 : EngineConfig := { batchSize := 5 }

/-! ## Claim C7 -/

/-- C7 counterexample: with a stored cursor of 0 (reachable: an iteration at
currentHeight() = 1 from the empty store writes cursor 0) the loop computes
highestSynced = 1 — the JS falsy default (await get()) || 1 also fires on a
stored 0 — while the claim's formula, the stored cursor whenever one is
present, gives 0. -/
theorem syncWindow_counterexample :
    (loopIter cfg5 none 1).cursor = some 0 ∧
    (loopIter cfg5 (some 0) 11).hs = 1 ∧
    claimedHighestSynced (some 0) = 0 ∧ (1 : Nat) ≠ 0 :=
  ⟨rfl, rfl, rfl, by norm_num⟩

/-- C7 (amended): at the start of every iteration the engine computes its sync
window as highestSynced = the stored cursor, with 1 substituted when the
cursor is absent or stored as 0 (the || 1 falsy default);
head = max(currentHeight() - 1, 0); and
target = min(highestSynced + batchSize, head). -/
theorem syncWindow_formulas (cfg : EngineConfig) (c : Option Nat) (h : Nat) :
    (loopIter cfg c h).hs = highestSyncedOf c ∧
    ((loopIter cfg c h).head : Int) = max ((h : Int) - 1) 0 ∧
    (loopIter cfg c h).tgt
      = min ((loopIter cfg c h).hs + cfg.batchSize) (loopIter cfg c h).head := by
  have hhead : ((headOf h : Nat) : Int) = max ((h : Int) - 1) 0 := by
    rw [headOf]
    omega
  rcases lt_trichotomy (highestSyncedOf c) (targetOf cfg c h) with hc | hc | hc
  · rw [loopIter_fetch cfg c h hc]
    exact ⟨rfl, hhead, rfl⟩
  · rw [loopIter_atHead cfg c h hc]
    exact ⟨rfl, hhead, rfl⟩
  · rw [loopIter_backward cfg c h hc]
    exact ⟨rfl, hhead, rfl⟩

/-! ## Claim C1 -/

/-- C1 counterexample: from the empty store with currentHeight() = 11 and
batchSize = 5, the first iteration computes highestSynced = 1 and target = 6
but hands the fetch stage the bounds (1, 6) treated inclusively at both ends —
the compatibility-mode loop requests blocks 1,2,3,4,5,6 — not the claimed
(highestSynced, target] window of blocks 2 through 6. -/
theorem fetchRange_counterexample :
    (loopIter cfg5 none 11).fetched = some (1, 6) ∧
    legacyRequestedBlocks 1 6 = [1, 2, 3, 4, 5, 6] ∧
    (loopIter cfg5 none 11).fetched ≠ some (1 + 1, 6) ∧
    legacyRequestedBlocks 1 6 ≠ [2, 3, 4, 5, 6] :=
  ⟨rfl, rfl, by decide, by decide⟩

/-- C1 (amended): whenever an iteration performs a fetch, the bounds handed to
_syncSequencerBlocks are exactly (highestSynced, target) and the fetch stage
treats them inclusively at both ends: the compatibility-mode loop requests
precisely the blocks i with highestSynced ≤ i ≤ target.  In particular, from
an empty store with currentHeight() = 11 and batchSize = 5 the first iteration
fetches blocks 1 through 6 — re-fetching the already-synced block 1 — and the
cursor becomes 6. -/
theorem fetchRange_inclusive (cfg : EngineConfig) (c : Option Nat) (h : Nat)
    (s e : Nat) (hf : (loopIter cfg c h).fetched = some (s, e)) :
    (s = highestSyncedOf c ∧ e = targetOf cfg c h ∧
      ∀ i, i ∈ legacyRequestedBlocks s e ↔ (s ≤ i ∧ i ≤ e)) ∧
    ((loopIter cfg5 none 11).fetched = some (1, 6) ∧
      (loopIter cfg5 none 11).cursor = some 6 ∧
      legacyRequestedBlocks 1 6 = [1, 2, 3, 4, 5, 6]) := by
  constructor
  · rcases lt_trichotomy (highestSyncedOf c) (targetOf cfg c h) with hc | hc | hc
    · rw [loopIter_fetch cfg c h hc] at hf
      simp only [Option.some.injEq, Prod.mk.injEq] at hf
      obtain ⟨hfs, hfe⟩ := hf
      subst hfs
      subst hfe
      refine ⟨rfl, rfl, ?_⟩
      intro i
      rw [legacyRequestedBlocks, List.mem_range']
      constructor
      · rintro ⟨j, hj, rfl⟩
        omega
      · rintro ⟨h1, h2⟩
        exact ⟨i - highestSyncedOf c, by omega, by omega⟩
    · rw [loopIter_atHead cfg c h hc] at hf
      simp at hf
    · rw [loopIter_backward cfg c h hc] at hf
      simp at hf
  · exact ⟨rfl, rfl, rfl⟩

theorem fetchRange_inclusive_witness :
    (1 = highestSyncedOf none ∧ 6 = targetOf cfg5 none 11 ∧
      ∀ i, i ∈ legacyRequestedBlocks 1 6 ↔ (1 ≤ i ∧ i ≤ 6)) ∧
    ((loopIter cfg5 none 11).fetched = some (1, 6) ∧
      (loopIter cfg5 none 11).cursor = some 6 ∧
      legacyRequestedBlocks 1 6 = [1, 2, 3, 4, 5, 6]) :=
  fetchRange_inclusive cfg5 none 11 1 6 rfl

/-! ## Claim C2 -/

/-- C2 counterexample: with stored cursor 5 and currentHeight() = 3 the
iteration computes target = 2 < 5 = highestSynced; it performs no fetch, but
still writes the cursor, which decreases from 5 to 2 — the loop is not
a no-op there and the stored highest-synced value is not monotonic. -/
theorem cursor_monotone_counterexample :
    (loopIter cfg5 (some 5) 3).fetched = none ∧
    (loopIter cfg5 (some 5) 3).cursor = some 2 ∧ ¬ (5 : Nat) ≤ 2 :=
  ⟨rfl, rfl, by norm_num⟩

/-- C2 (amended): in an iteration where highestSynced > target the engine logs
and performs no fetch, but still writes the cursor to target — the stored
value can therefore decrease when the reported chain height falls below the
cursor.  Only in iterations with highestSynced ≤ target does the stored
cursor never decrease. -/
theorem cursor_update_behavior (cfg : EngineConfig) (c : Option Nat) (h : Nat) :
    (highestSyncedOf c > targetOf cfg c h →
      (loopIter cfg c h).fetched = none ∧
      (loopIter cfg c h).cursor = some (targetOf cfg c h)) ∧
    (highestSyncedOf c ≤ targetOf cfg c h →
      ∀ n, c = some n → ∀ m, (loopIter cfg c h).cursor = some m → n ≤ m) := by
  constructor
  · intro hc
    rw [loopIter_backward cfg c h hc]
    exact ⟨rfl, rfl⟩
  · intro hc n hcn m hm
    have hle : n ≤ highestSyncedOf (some n) := by
      rw [highestSyncedOf]
      split <;> omega
    subst hcn
    rcases eq_or_lt_of_le hc with he | hlt
    · rw [loopIter_atHead cfg (some n) h he] at hm
      simp only [Option.some.injEq] at hm
      omega
    · rw [loopIter_fetch cfg (some n) h hlt] at hm
      simp only [Option.some.injEq] at hm
      omega

theorem cursor_update_behavior_witness :
    (loopIter cfg5 (some 5) 3).fetched = none ∧
    (loopIter cfg5 (some 5) 3).cursor = some (targetOf cfg5 (some 5) 3) :=
  (cursor_update_behavior cfg5 (some 5) 3).1 (by decide)

/-! ## Claim C8 -/

/-- C8: any error raised inside the loop body is dispatched by the catch
clause: if the service has been asked to stop (running is false) or the
dangerouslyCatchAllErrors option is set, the error is absorbed — logged and
followed by one pollingInterval sleep — and iteration continues; otherwise the
very same error is re-raised out of the loop, terminating the engine. -/
theorem errorPolicy (cfg : EngineConfig) (running : Bool) (c : Option Nat)
    (env : LoopEnv) (e : IngestErr)
    (herr : loopBodyCore cfg c env = .error e) :
    loopBody cfg running c env =
      (if running = false ∨ cfg.dangerouslyCatchAllErrors = true then
        .caught cfg.pollingInterval
      else .raised e) := by
  rw [loopBody, herr]
  by_cases h1 : running
  · by_cases h2 : cfg.dangerouslyCatchAllErrors
    · simp [h1, h2]
    · simp [h1, h2]
  · simp [h1]

theorem errorPolicy_witness :
    loopBody cfg5 true none
      { height := .error .rpc, syncOk := .ok (), putOk := .ok () }
      = .raised .rpc ∧
    loopBody { batchSize := 5, dangerouslyCatchAllErrors := true } true none
      { height := .error .rpc, syncOk := .ok (), putOk := .ok () }
      = .caught 5000 ∧
    loopBody cfg5 false none
      { height := .ok 11, syncOk := .ok (), putOk := .error .storage }
      = .caught 5000 :=
  ⟨by
    have h := errorPolicy cfg5 true none
      { height := .error .rpc, syncOk := .ok (), putOk := .ok () } .rpc rfl
    simpa [cfg5] using h,
   by
    have h := errorPolicy { batchSize := 5, dangerouslyCatchAllErrors := true }
      true none { height := .error .rpc, syncOk := .ok (), putOk := .ok () } .rpc rfl
    simpa using h,
   by
    have h := errorPolicy cfg5 false none
      { height := .ok 11, syncOk := .ok (), putOk := .error .storage } .storage rfl
    simpa [cfg5] using h⟩

/-! ## Claim C9 -/

/-- C9: in compatibility mode the per-block responses, arriving in any order,
are re-ordered by each block's own numeric block number before being handed to
the decoder: the list handed downstream by _syncSequencerBlocks is ascending
by block number and a permutation of the responses; in particular responses
arriving as [block 3, block 2] are handed downstream as [block 2, block 3]. -/
theorem legacySort_ordered :
    (∀ responses : List RawBlock,
      (sortBlocks responses).Pairwise (fun a b => a.number ≤ b.number) ∧
      (sortBlocks responses).Perm responses) ∧
    (∀ startBlockNumber endBlockNumber (responses : List RawBlock),
      startBlockNumber ≤ endBlockNumber →
      _syncSequencerBlocks true startBlockNumber endBlockNumber responses
        = some (sortBlocks responses)) ∧
    (sortBlocks [⟨3, "b3"⟩, ⟨2, "b2"⟩]).map RawBlock.number = [2, 3] := by
  refine ⟨?_, ?_, rfl⟩
  · intro responses
    constructor
    · have hs := List.sorted_insertionSort
        (fun a b : RawBlock => a.number ≤ b.number) responses
      exact hs
    · exact List.perm_insertionSort
        (fun a b : RawBlock => a.number ≤ b.number) responses
  · intro s e responses hse
    rw [_syncSequencerBlocks, if_neg (by omega)]
    rfl

theorem legacySort_ordered_witness :
    _syncSequencerBlocks true 2 3 [⟨3, "b3"⟩, ⟨2, "b2"⟩]
      = some (sortBlocks [⟨3, "b3"⟩, ⟨2, "b2"⟩]) :=
  legacySort_ordered.2.1 2 3 [⟨3, "b3"⟩, ⟨2, "b2"⟩] (by norm_num)

/-! ## Claim C10 -/

/-- C10: getLastScannedEventBlock never raises; whenever the underlying read
fails — a missing key or any other storage failure — it returns null, and on a
success whose value is a number it returns that number; a caller therefore
cannot distinguish an absent cursor from a failed read (both yield null, as on
the empty store). -/
theorem lastScannedEventBlock_null_on_failure :
    (∀ (res : Except DbFailure StoredValue),
      getLastScannedEventBlockR res = none ∨
      ∃ n, res = .ok (.num n) ∧ getLastScannedEventBlockR res = some n) ∧
    (∀ failure : DbFailure, getLastScannedEventBlockR (.error failure) = none) ∧
    (∀ event : String, getLastScannedEventBlock [] event = none) := by
  refine ⟨?_, fun _ => rfl, fun _ => rfl⟩
  intro res
  match res with
  | .ok (.num n) => exact Or.inr ⟨n, rfl, rfl⟩
  | .ok (.enqueue _) => exact Or.inl rfl
  | .ok (.transaction _) => exact Or.inl rfl
  | .ok (.transactionBatch _) => exact Or.inl rfl
  | .ok (.stateRoot _) => exact Or.inl rfl
  | .ok (.stateRootBatch _) => exact Or.inl rfl
  | .error _ => exact Or.inl rfl
